import Mathlib

/-!
Verification of the MOBBO_OneSerial balance-board receiver/visualiser.

The Python source (`balanceboardreceiver.py`, `balanceboardvisualiser.py`)
reads bytes from a serial port, decodes them as UTF-8 with `errors='ignore'`,
accumulates them in a string buffer, splits the buffer at line feeds,
strips each line, and either prints it (receiver) or parses it as a
7-field comma-separated telemetry record and updates plot state
(visualiser).  Python strings are sequences of code points; we model them
as `List Char`, byte streams as `List Nat`, and `float` values as `ℚ`.
-/

namespace MOBBO

/-- ASCII whitespace characters stripped by Python's `str.strip()`
(the wire format is ASCII, so non-ASCII Unicode spaces do not arise). -/
def isPySpace (c : Char) : Bool :=
  c = ' ' || c = '\t' || c = '\n' || c = '\r' || c = '\x0b' || c = '\x0c'

/-- Python `str.strip()`: drop leading and trailing whitespace. -/
def pyStrip (l : List Char) : List Char :=
  ((l.dropWhile isPySpace).reverse.dropWhile isPySpace).reverse

/-- Python `buffer.split('\n', 1)` when a line feed is present: the part
before the first line feed and the part after it. -/
def splitFirstLF : List Char → Option (List Char × List Char)
  | [] => none
  | c :: cs =>
      if c = '\n' then some ([], cs)
      else (splitFirstLF cs).map (fun p => (c :: p.1, p.2))

/-- Recursion worker for `extractLoop`; the fuel bounds the number of loop
iterations and is immaterial once it is at least the buffer length. -/
def extractLoopAux : Nat → List Char → List (List Char) × List Char
  | 0, buf => ([], buf)
  | fuel + 1, buf =>
      match splitFirstLF buf with
      | none => ([], buf)
      | some (line, rest) =>
          let p := extractLoopAux fuel rest
          (line :: p.1, p.2)

/-- The `while '\n' in buffer: line, buffer = buffer.split('\n', 1)` loop,
collecting the raw (pre-strip) line segments in order together with the
final buffer remainder. -/
def extractLoop (buf : List Char) : List (List Char) × List Char :=
  extractLoopAux buf.length buf

/-- Structural reformulation of `extractLoop`: split the buffer at every
line feed, keeping the suffix after the last line feed as remainder.
`extractLoop_eq_extractRaw` proves the two agree. -/
def extractRaw : List Char → List (List Char) × List Char
  | [] => ([], [])
  | c :: cs =>
      let p := extractRaw cs
      if c = '\n' then ([] :: p.1, p.2)
      else
        match p with
        | ([], rest) => ([], c :: rest)
        | (r :: rs, rest) => ((c :: r) :: rs, rest)

/-- Reinsert the line feeds that the extraction loop consumed: every
segment is followed by one line feed. -/
def joinLF : List (List Char) → List Char
  | [] => []
  | l :: ls => l ++ '\n' :: joinLF ls

/-- Continuation byte test: `0x80 ≤ x ≤ 0xBF`. -/
def contB (x : Nat) : Bool := decide (0x80 ≤ x ∧ x ≤ 0xBF)

/-- Valid first continuation byte after a three-byte lead (excludes overlong
encodings after `0xE0` and surrogates after `0xED`). -/
def cont1ok3 (b b1 : Nat) : Bool :=
  if b = 0xE0 then decide (0xA0 ≤ b1 ∧ b1 ≤ 0xBF)
  else if b = 0xED then decide (0x80 ≤ b1 ∧ b1 ≤ 0x9F)
  else contB b1

/-- Valid first continuation byte after a four-byte lead (excludes overlong
encodings after `0xF0` and code points beyond `U+10FFFF` after `0xF4`). -/
def cont1ok4 (b b1 : Nat) : Bool :=
  if b = 0xF0 then decide (0x90 ≤ b1 ∧ b1 ≤ 0xBF)
  else if b = 0xF4 then decide (0x80 ≤ b1 ∧ b1 ≤ 0x8F)
  else contB b1

/-- One step of `bytes.decode('utf-8', errors='ignore')`: given the lead
byte `b` and the bytes after it, return the decoded character (`none` when
the maximal subpart starting at `b` is invalid and must be skipped, as
CPython's `ignore` error handler does) and the bytes remaining after the
consumed prefix. -/
def utf8Step (b : Nat) (bs : List Nat) : Option Char × List Nat :=
  if b ≤ 0x7F then (some (Char.ofNat b), bs)
  else if b ≤ 0xC1 then (none, bs)
  else if b ≤ 0xDF then
    match bs with
    | [] => (none, [])
    | b1 :: rest =>
        if contB b1 then
          (some (Char.ofNat ((b - 0xC0) * 0x40 + (b1 - 0x80))), rest)
        else (none, b1 :: rest)
  else if b ≤ 0xEF then
    match bs with
    | [] => (none, [])
    | b1 :: rest =>
        if cont1ok3 b b1 then
          match rest with
          | [] => (none, [])
          | b2 :: rest2 =>
              if contB b2 then
                (some (Char.ofNat (((b - 0xE0) * 0x40 + (b1 - 0x80)) * 0x40
                    + (b2 - 0x80))), rest2)
              else (none, b2 :: rest2)
        else (none, b1 :: rest)
  else if b ≤ 0xF4 then
    match bs with
    | [] => (none, [])
    | b1 :: rest =>
        if cont1ok4 b b1 then
          match rest with
          | [] => (none, [])
          | b2 :: rest2 =>
              if contB b2 then
                match rest2 with
                | [] => (none, [])
                | b3 :: rest3 =>
                    if contB b3 then
                      (some (Char.ofNat ((((b - 0xF0) * 0x40 + (b1 - 0x80)) * 0x40
                          + (b2 - 0x80)) * 0x40 + (b3 - 0x80))), rest3)
                    else (none, b3 :: rest3)
              else (none, b2 :: rest2)
        else (none, b1 :: rest)
  else (none, bs)

/-- Recursion worker for `decodeUtf8Ignore`; `fuel` bounds the number of
steps and is immaterial whenever it is at least the length of the input. -/
def decodeAux : Nat → List Nat → List Char
  | 0, _ => []
  | _, [] => []
  | fuel + 1, b :: bs =>
      match utf8Step b bs with
      | (some c, rest) => c :: decodeAux fuel rest
      | (none, rest) => decodeAux fuel rest

/-- `bytes.decode('utf-8', errors='ignore')`: UTF-8 decoding in which every
invalid maximal subpart is dropped instead of raising. -/
def decodeUtf8Ignore (l : List Nat) : List Char := decodeAux l.length l

/-- Python `line.split(',')`: split on every comma, keeping empty parts. -/
def splitComma : List Char → List (List Char)
  | [] => [[]]
  | c :: cs =>
      let r := splitComma cs
      if c = ',' then [] :: r
      else
        match r with
        | [] => [[c]]
        | p :: ps => (c :: p) :: ps

/-- `pat.isPrefixOf s` for character lists, modelling `line.startswith(x)`. -/
def startsWith : List Char → List Char → Bool
  | [], _ => true
  | _ :: _, [] => false
  | p :: ps, c :: cs => p = c && startsWith ps cs

/-- The visualiser's diagnostic test:
`any(line.startswith(x) for x in ["Setup", "Taring", "Format", "Force", "Calculating"])`. -/
def diagStarts (line : List Char) : Bool :=
  ["Setup", "Taring", "Format", "Force", "Calculating"].any
    (fun w => startsWith w.data line)

/-- Leading decimal digits of a string: their values in order, and the rest. -/
def takeDigits : List Char → List Nat × List Char
  | [] => ([], [])
  | c :: cs =>
      if '0' ≤ c ∧ c ≤ '9' then
        let p := takeDigits cs
        ((c.toNat - 48) :: p.1, p.2)
      else ([], c :: cs)

/-- Value of a digit run read in base 10. -/
def natVal (ds : List Nat) : Nat := ds.foldl (fun a d => a * 10 + d) 0

/-- Exact value of a decimal float literal: sign `sg`, integer digits `ds`,
fraction digits `fs`, exponent sign `esg` and exponent digits `es`, i.e.
`sg * ds.fs * 10 ^ (esg * es)`, as a rational built with integer arithmetic
and one normalising `mkRat`. -/
def decValue (sg : ℤ) (ds fs : List Nat) (esg : ℤ) (es : List Nat) : ℚ :=
  let e : ℤ := esg * (natVal es : ℤ)
  let mant : ℤ := sg * ((natVal ds : ℤ) * (10 : ℤ) ^ fs.length + (natVal fs : ℤ))
  mkRat (mant * (10 : ℤ) ^ e.toNat) ((10 : Nat) ^ fs.length * (10 : Nat) ^ (-e).toNat)

/-- Exponent digits after the optional sign: at least one digit and nothing
after them. -/
def expPart2 (sg : ℤ) (ds fs : List Nat) (esg : ℤ) (l : List Char) : Option ℚ :=
  let p := takeDigits l
  if p.1.isEmpty || !p.2.isEmpty then none
  else some (decValue sg ds fs esg p.1)

/-- Exponent part after `e`/`E`: optional sign, then digits. -/
def expPart (sg : ℤ) (ds fs : List Nat) (l : List Char) : Option ℚ :=
  match l with
  | '+' :: r => expPart2 sg ds fs 1 r
  | '-' :: r => expPart2 sg ds fs (-1) r
  | s => expPart2 sg ds fs 1 s

/-- Unsigned body of a float literal: digits, optional fraction, optional
exponent.  At least one digit must appear in the integer or the fraction. -/
def pyFloatMag (sg : ℤ) (l : List Char) : Option ℚ :=
  let p := takeDigits l
  match p.2 with
  | [] => if p.1.isEmpty then none else some (decValue sg p.1 [] 1 [])
  | '.' :: r =>
      let q := takeDigits r
      if p.1.isEmpty && q.1.isEmpty then none
      else
        match q.2 with
        | [] => some (decValue sg p.1 q.1 1 [])
        | e :: r2 => if e = 'e' ∨ e = 'E' then expPart sg p.1 q.1 r2 else none
  | e :: r2 =>
      if (e = 'e' ∨ e = 'E') && !p.1.isEmpty then expPart sg p.1 [] r2
      else none

/-- Python `float(s)` on the decimal literal forms relevant to the wire
format: surrounding whitespace, optional sign, decimal digits with optional
fraction and exponent.  The exotic inputs `float` also accepts (`inf`,
`nan`, underscore separators) are outside the device's output alphabet and
are not modelled; on every other input the function returns `none` exactly
when `float` raises `ValueError`.  Values are exact rationals. -/
def pyFloat (l : List Char) : Option ℚ :=
  match pyStrip l with
  | '+' :: r => pyFloatMag 1 r
  | '-' :: r => pyFloatMag (-1) r
  | s => pyFloatMag 1 s

/-- A parsed telemetry record: the six floats of a data line (`TIME` is
never read by a consumer). -/
structure Telemetry where
  f1 : ℚ
  f2 : ℚ
  f3 : ℚ
  f4 : ℚ
  copx : ℚ
  copy : ℚ
deriving DecidableEq

/-- The visualiser's mutable state: serial buffer, current readings, and
the two parallel trail lists. -/
structure VisState where
  buffer : List Char
  f1 : ℚ
  f2 : ℚ
  f3 : ℚ
  f4 : ℚ
  copx : ℚ
  copy : ℚ
  trail_x : List ℚ
  trail_y : List ℚ
deriving DecidableEq

/-- The state `BalanceBoardVisualizer.__init__` sets up. -/
def initState : VisState := ⟨[], 0, 0, 0, 0, 0, 0, [], []⟩

/-- The successful-parse outcome of the visualiser's per-line block: the
prefix filter, the 7-field test, and the six `float` casts, as one pure
function. -/
def parseRecord (line : List Char) : Option Telemetry :=
  if line.isEmpty || diagStarts line then none
  else
    match splitComma line with
    | [_t, p1, p2, p3, p4, p5, p6] =>
        match pyFloat p1, pyFloat p2, pyFloat p3, pyFloat p4,
            pyFloat p5, pyFloat p6 with
        | some v1, some v2, some v3, some v4, some v5, some v6 =>
            some ⟨v1, v2, v3, v4, v5, v6⟩
        | _, _, _, _, _, _ => none
    | _ => none

/-- One iteration of the visualiser's per-line block on an already
stripped line.  The six `self.fi = float(parts[i])` assignments execute
one at a time inside one `try`, so a `ValueError` at field `i` leaves the
earlier fields already overwritten; the trail append happens only after
all six succeed, followed by the `> 20` eviction of the head. -/
def processLine (st : VisState) (line : List Char) : VisState :=
  if line.isEmpty || diagStarts line then st
  else
    match splitComma line with
    | [_t, p1, p2, p3, p4, p5, p6] =>
        match pyFloat p1 with
        | none => st
        | some v1 =>
            let st1 := { st with f1 := v1 }
            match pyFloat p2 with
            | none => st1
            | some v2 =>
                let st2 := { st1 with f2 := v2 }
                match pyFloat p3 with
                | none => st2
                | some v3 =>
                    let st3 := { st2 with f3 := v3 }
                    match pyFloat p4 with
                    | none => st3
                    | some v4 =>
                        let st4 := { st3 with f4 := v4 }
                        match pyFloat p5 with
                        | none => st4
                        | some v5 =>
                            let st5 := { st4 with copx := v5 }
                            match pyFloat p6 with
                            | none => st5
                            | some v6 =>
                                let st6 := { st5 with copy := v6 }
                                let tx := st6.trail_x ++ [v5]
                                let ty := st6.trail_y ++ [v6]
                                if tx.length > 20 then
                                  { st6 with trail_x := tx.tail, trail_y := ty.tail }
                                else
                                  { st6 with trail_x := tx, trail_y := ty }
    | _ => st

/-- `BalanceBoardVisualizer.read_data`: when bytes are available, decode
and append them to the buffer, then run the split/strip/parse loop
(`extractRaw`, agreeing with the literal loop by
`extractLoop_eq_extractRaw`). -/
def visPoll (st : VisState) (avail : List Nat) : VisState :=
  if avail.length > 0 then
    let p := extractRaw (st.buffer ++ decodeUtf8Ignore avail)
    (p.1.map pyStrip).foldl processLine { st with buffer := p.2 }
  else st

/-- One receiver poll at the framing level: the raw segments extracted and
the new buffer.  When nothing is waiting (`in_waiting == 0`) the body is
skipped.  Extraction is `extractRaw`, equal to the literal loop by
`extractLoop_eq_extractRaw`. -/
def pollBytes (buf : List Char) (avail : List Nat) :
    List (List Char) × List Char :=
  if avail.length > 0 then extractRaw (buf ++ decodeUtf8Ignore avail)
  else ([], buf)

/-- The lines the receiver prints for given raw segments: each stripped,
empty results skipped. -/
def yieldLines (raws : List (List Char)) : List (List Char) :=
  (raws.map pyStrip).filter (fun l => !l.isEmpty)

/-- `BalanceBoardReceiver.start`, one poll: printed lines and new buffer. -/
def recvPoll (buf : List Char) (avail : List Nat) :
    List (List Char) × List Char :=
  (yieldLines (pollBytes buf avail).1, (pollBytes buf avail).2)

/-- Receiver polling over a whole schedule of available-byte chunks:
all printed lines in order, and the final buffer. -/
def recvPollAll : List (List Nat) → List Char → List (List Char) × List Char
  | [], buf => ([], buf)
  | a :: as, buf =>
      let p := recvPoll buf a
      let q := recvPollAll as p.2
      (p.1 ++ q.1, q.2)

/-- Same schedule at the framing level: all raw segments, final buffer. -/
def rawPollAll : List (List Nat) → List Char → List (List Char) × List Char
  | [], buf => ([], buf)
  | a :: as, buf =>
      let p := pollBytes buf a
      let q := rawPollAll as p.2
      (p.1 ++ q.1, q.2)

/-- What one force cell shows: the percentage value and the patch alpha. -/
structure CellView where
  pct : ℚ
  alpha : ℚ
deriving DecidableEq

/-- The force-cell section of `BalanceBoardVisualizer.update`, cells in the
code's order `[F2, F1, F3, F4]`.  Percentage and alpha are the exact values
the code computes before display formatting. -/
def updateForces (f1 f2 f3 f4 : ℚ) : List CellView :=
  let forces := [f2, f1, f3, f4]
  let total := f1 + f2 + f3 + f4
  forces.map fun force =>
    if total > 1 then
      { pct := |force| / |total| * 100,
        alpha := min (max (3/10 + |force| / max |total| 1 * (7/10)) (3/10)) 1 }
    else
      { pct := 0, alpha := 3/10 }

theorem splitFirstLF_length {l a b : List Char}
    (h : splitFirstLF l = some (a, b)) : b.length < l.length := by
  induction l generalizing a b with
  | nil => simp [splitFirstLF] at h
  | cons c cs ih =>
      by_cases hc : c = '\n'
      · subst hc
        rw [splitFirstLF, if_pos rfl] at h
        simp only [Option.some.injEq, Prod.mk.injEq] at h
        obtain ⟨h1, h2⟩ := h
        subst h2
        simp
      · rw [splitFirstLF, if_neg hc, Option.map_eq_some'] at h
        obtain ⟨⟨p, q⟩, hpq, hp⟩ := h
        simp only [Prod.mk.injEq] at hp
        obtain ⟨h1, h2⟩ := hp
        subst h2
        exact Nat.lt_succ_of_lt (ih hpq)

theorem extractLoopAux_fuel : ∀ f buf, List.length buf ≤ f →
    extractLoopAux f buf = extractLoopAux buf.length buf := by
  intro f
  induction f using Nat.strong_induction_on with
  | _ f ih =>
      intro buf hf
      rcases hs : splitFirstLF buf with _ | ⟨line, rest⟩
      · cases f with
        | zero =>
            cases hb : buf with
            | nil => rfl
            | cons c cs =>
                rw [hb] at hf
                simp at hf
        | succ f =>
            cases hb : buf with
            | nil => rfl
            | cons c cs =>
                rw [hb] at hs
                simp only [extractLoopAux, hs, List.length_cons]
      · have hrest := splitFirstLF_length hs
        cases f with
        | zero => omega
        | succ f =>
            have hbuf : 0 < buf.length := by omega
            obtain ⟨c, cs, hb⟩ : ∃ c cs, buf = c :: cs := by
              cases buf with
              | nil => simp at hbuf
              | cons c cs => exact ⟨c, cs, rfl⟩
            subst hb
            simp only [List.length_cons, extractLoopAux, hs]
            rw [ih f (Nat.lt_succ_self f) rest (by simp at hf hrest ⊢; omega),
                ih cs.length (Nat.lt_succ_of_le (by simp at hf; omega)) rest
                  (by simp at hrest; omega)]

theorem extractLoop_none {buf : List Char} (h : splitFirstLF buf = none) :
    extractLoop buf = ([], buf) := by
  cases buf with
  | nil => rfl
  | cons c cs =>
      show extractLoopAux (c :: cs).length (c :: cs) = ([], c :: cs)
      simp only [List.length_cons, extractLoopAux, h]

theorem extractLoop_some {buf a b : List Char}
    (h : splitFirstLF buf = some (a, b)) :
    extractLoop buf = (a :: (extractLoop b).1, (extractLoop b).2) := by
  cases buf with
  | nil => cases h
  | cons c cs =>
      have hlen := splitFirstLF_length h
      show extractLoopAux (c :: cs).length (c :: cs) = _
      simp only [List.length_cons, extractLoopAux, h]
      rw [extractLoopAux_fuel cs.length b (by simp at hlen; omega)]
      rfl

theorem splitFirstLF_eq_none {l : List Char} (h : '\n' ∉ l) :
    splitFirstLF l = none := by
  induction l with
  | nil => rfl
  | cons c cs ih =>
      have hc : c ≠ '\n' := fun hc => h (hc ▸ List.mem_cons_self c cs)
      have hcs : '\n' ∉ cs := fun hm => h (List.mem_cons_of_mem c hm)
      simp [splitFirstLF, hc, ih hcs]

theorem extractRaw_no_lf {l : List Char} (h : '\n' ∉ l) :
    extractRaw l = ([], l) := by
  induction l with
  | nil => rfl
  | cons c cs ih =>
      have hc : c ≠ '\n' := fun hc => h (hc ▸ List.mem_cons_self c cs)
      have hcs : '\n' ∉ cs := fun hm => h (List.mem_cons_of_mem c hm)
      simp [extractRaw, hc, ih hcs]

theorem splitFirstLF_eq_some {a : List Char} (b : List Char) (h : '\n' ∉ a) :
    splitFirstLF (a ++ '\n' :: b) = some (a, b) := by
  induction a with
  | nil => simp [splitFirstLF]
  | cons c cs ih =>
      have hc : c ≠ '\n' := fun hc => h (hc ▸ List.mem_cons_self c cs)
      have hcs : '\n' ∉ cs := fun hm => h (List.mem_cons_of_mem c hm)
      simp [splitFirstLF, hc, ih hcs]

theorem extractRaw_append_lf {a : List Char} (b : List Char) (h : '\n' ∉ a) :
    extractRaw (a ++ '\n' :: b) = (a :: (extractRaw b).1, (extractRaw b).2) := by
  induction a with
  | nil => simp [extractRaw]
  | cons c cs ih =>
      have hc : c ≠ '\n' := fun hc => h (hc ▸ List.mem_cons_self c cs)
      have hcs : '\n' ∉ cs := fun hm => h (List.mem_cons_of_mem c hm)
      simp only [List.cons_append, extractRaw, List.append_eq]
      rw [ih hcs]
      simp [hc]

theorem first_lf_decomp {l : List Char} (h : '\n' ∈ l) :
    ∃ a b, '\n' ∉ a ∧ l = a ++ '\n' :: b := by
  induction l with
  | nil => cases h
  | cons c cs ih =>
      by_cases hc : c = '\n'
      · exact ⟨[], cs, by simp, by simp [hc]⟩
      · have hm : '\n' ∈ cs := by
          rcases List.mem_cons.mp h with h1 | h1
          · exact absurd h1.symm hc
          · exact h1
        obtain ⟨a, b, ha, rfl⟩ := ih hm
        exact ⟨c :: a, b, by simp [ha, Ne.symm hc], by simp⟩

theorem extractLoop_eq_extractRaw (buf : List Char) :
    extractLoop buf = extractRaw buf := by
  generalize hn : buf.length = n
  induction n using Nat.strong_induction_on generalizing buf with
  | _ n ih =>
      by_cases hmem : '\n' ∈ buf
      · obtain ⟨a, b, ha, heq⟩ := first_lf_decomp hmem
        subst heq
        rw [extractLoop_some (splitFirstLF_eq_some b ha), extractRaw_append_lf b ha,
            ih b.length (by simp at hn; omega) b rfl]
      · rw [extractLoop_none (splitFirstLF_eq_none hmem), extractRaw_no_lf hmem]

theorem extractRaw_join (buf : List Char) :
    joinLF (extractRaw buf).1 ++ (extractRaw buf).2 = buf := by
  induction buf with
  | nil => rfl
  | cons c cs ih =>
      rcases hp : extractRaw cs with ⟨raws, rest⟩
      rw [hp] at ih
      by_cases hc : c = '\n'
      · subst hc
        simp only [extractRaw, hp, if_pos rfl]
        simpa [joinLF] using ih
      · cases raws with
        | nil =>
            simp only [extractRaw, hp, hc, if_false]
            simp only [joinLF, List.nil_append] at ih ⊢
            simp [ih]
        | cons r rs =>
            simp only [extractRaw, hp, hc, if_false]
            simp only [joinLF, List.cons_append, List.append_assoc] at ih ⊢
            simp [ih]

theorem extractRaw_raws_no_lf {buf r : List Char}
    (hr : r ∈ (extractRaw buf).1) : '\n' ∉ r := by
  induction buf generalizing r with
  | nil => simp [extractRaw] at hr
  | cons c cs ih =>
      rcases hp : extractRaw cs with ⟨raws, rest⟩
      rw [hp] at ih
      by_cases hc : c = '\n'
      · subst hc
        simp only [extractRaw, hp, if_pos rfl] at hr
        rcases List.mem_cons.mp hr with h1 | h1
        · subst h1; simp
        · exact ih h1
      · cases raws with
        | nil =>
            simp [extractRaw, hp, hc] at hr
        | cons q qs =>
            simp only [extractRaw, hp, hc, if_false] at hr
            rcases List.mem_cons.mp hr with h1 | h1
            · subst h1
              intro hm
              rcases List.mem_cons.mp hm with h2 | h2
              · exact hc h2.symm
              · exact ih (List.mem_cons_self q qs) h2
            · exact ih (List.mem_cons_of_mem q h1)

theorem extractRaw_rest_no_lf (buf : List Char) :
    '\n' ∉ (extractRaw buf).2 := by
  induction buf with
  | nil => simp [extractRaw]
  | cons c cs ih =>
      rcases hp : extractRaw cs with ⟨raws, rest⟩
      rw [hp] at ih
      by_cases hc : c = '\n'
      · subst hc
        simpa [extractRaw, hp] using ih
      · cases raws with
        | nil =>
            simp only [extractRaw, hp, hc, if_false]
            intro hm
            rcases List.mem_cons.mp hm with h1 | h1
            · exact hc h1.symm
            · exact ih h1
        | cons q qs =>
            simpa [extractRaw, hp, hc] using ih

theorem pyStrip_eq (l : List Char) :
    pyStrip l = List.rdropWhile isPySpace (List.dropWhile isPySpace l) := rfl

theorem pyStrip_idem (l : List Char) : pyStrip (pyStrip l) = pyStrip l := by
  rw [pyStrip_eq, pyStrip_eq]
  have h1 : List.dropWhile isPySpace
      (List.rdropWhile isPySpace (List.dropWhile isPySpace l)) =
      List.rdropWhile isPySpace (List.dropWhile isPySpace l) := by
    rcases hs : List.rdropWhile isPySpace (List.dropWhile isPySpace l) with _ | ⟨a, as⟩
    · rfl
    · obtain ⟨t, ht⟩ := List.rdropWhile_prefix isPySpace (List.dropWhile isPySpace l)
      rw [hs] at ht
      have hd : List.dropWhile isPySpace l = a :: (as ++ t) := by
        rw [← ht]
        simp
      have hlen : 0 < (List.dropWhile isPySpace l).length := by
        rw [hd]
        simp
      have hnp := List.dropWhile_get_zero_not isPySpace l hlen
      have hget := List.get_of_eq hd ⟨0, hlen⟩
      rw [hget] at hnp
      simp at hnp
      simp [List.dropWhile_cons, hnp]
  rw [h1, List.rdropWhile_idempotent]

theorem pyStrip_mem {c : Char} {l : List Char} (h : c ∈ pyStrip l) : c ∈ l := by
  rw [pyStrip_eq] at h
  exact (List.dropWhile_suffix isPySpace).sublist.subset
    ((List.rdropWhile_prefix isPySpace (List.dropWhile isPySpace l)).sublist.subset h)

theorem utf8Step_length (b : Nat) (bs : List Nat) :
    (utf8Step b bs).2.length ≤ bs.length := by
  unfold utf8Step
  repeat' split
  all_goals simp_arith

theorem decodeAux_fuel : ∀ f l, List.length l ≤ f →
    decodeAux f l = decodeAux l.length l := by
  intro f
  induction f using Nat.strong_induction_on with
  | _ f ih =>
      intro l hf
      cases l with
      | nil => cases f <;> rfl
      | cons b bs =>
          cases f with
          | zero => simp at hf
          | succ f =>
              have hbs : bs.length ≤ f := by
                simp at hf
                omega
              rcases hs : utf8Step b bs with ⟨oc, rest⟩
              have hrest : rest.length ≤ bs.length := by
                have := utf8Step_length b bs
                rw [hs] at this
                simpa using this
              cases oc with
              | some c =>
                  simp only [List.length_cons, decodeAux, hs]
                  rw [ih f (Nat.lt_succ_self f) rest (le_trans hrest hbs),
                      ih bs.length (Nat.lt_succ_of_le hbs) rest hrest]
              | none =>
                  simp only [List.length_cons, decodeAux, hs]
                  rw [ih f (Nat.lt_succ_self f) rest (le_trans hrest hbs),
                      ih bs.length (Nat.lt_succ_of_le hbs) rest hrest]

theorem decodeUtf8Ignore_cons_some {b : Nat} {bs : List Nat} {c : Char}
    {rest : List Nat} (h : utf8Step b bs = (some c, rest)) :
    decodeUtf8Ignore (b :: bs) = c :: decodeUtf8Ignore rest := by
  have hrest : rest.length ≤ bs.length := by
    have := utf8Step_length b bs
    rw [h] at this
    simpa using this
  show decodeAux (b :: bs).length (b :: bs) = c :: decodeAux rest.length rest
  simp only [List.length_cons, decodeAux, h]
  rw [decodeAux_fuel _ _ hrest]

theorem decodeUtf8Ignore_cons_none {b : Nat} {bs rest : List Nat}
    (h : utf8Step b bs = (none, rest)) :
    decodeUtf8Ignore (b :: bs) = decodeUtf8Ignore rest := by
  have hrest : rest.length ≤ bs.length := by
    have := utf8Step_length b bs
    rw [h] at this
    simpa using this
  show decodeAux (b :: bs).length (b :: bs) = decodeAux rest.length rest
  simp only [List.length_cons, decodeAux, h]
  rw [decodeAux_fuel _ _ hrest]

theorem utf8Step_ascii {b : Nat} (bs : List Nat) (hb : b ≤ 0x7F) :
    utf8Step b bs = (some (Char.ofNat b), bs) := by
  simp [utf8Step, hb]

theorem utf8Step_ff (bs : List Nat) : utf8Step 0xFF bs = (none, bs) := by
  simp [utf8Step]

theorem decodeUtf8Ignore_ascii {l : List Nat} (h : ∀ x ∈ l, x < 128) :
    decodeUtf8Ignore l = l.map Char.ofNat := by
  induction l with
  | nil => rfl
  | cons b bs ih =>
      have hb : b ≤ 0x7F := Nat.lt_succ_iff.mp (h b (List.mem_cons_self b bs))
      rw [decodeUtf8Ignore_cons_some (utf8Step_ascii bs hb),
        ih (fun x hx => h x (List.mem_cons_of_mem b hx))]
      rfl

theorem decodeUtf8Ignore_ff_cons (bs : List Nat) :
    decodeUtf8Ignore (0xFF :: bs) = decodeUtf8Ignore bs := by
  rw [decodeUtf8Ignore_cons_none (utf8Step_ff bs)]

theorem decodeUtf8Ignore_drop_ff (a b : List Nat)
    (ha : ∀ x ∈ a, x < 128) (hb : ∀ x ∈ b, x < 128) :
    decodeUtf8Ignore (a ++ 0xFF :: b) = a.map Char.ofNat ++ b.map Char.ofNat := by
  induction a with
  | nil => simp [decodeUtf8Ignore_ff_cons, decodeUtf8Ignore_ascii hb]
  | cons x xs ih =>
      have hx : x ≤ 0x7F := Nat.lt_succ_iff.mp (ha x (List.mem_cons_self x xs))
      rw [List.cons_append, decodeUtf8Ignore_cons_some (utf8Step_ascii _ hx),
        ih (fun y hy => ha y (List.mem_cons_of_mem x hy))]
      rfl

theorem toNat_ofNat_lt {x : Nat} (h : x < 128) : (Char.ofNat x).toNat = x := by
  have hv : x.isValidChar := Or.inl (by omega)
  simp [Char.ofNat, hv, Char.ofNatAux, Char.toNat]
  rfl

theorem joinLF_append (x y : List (List Char)) :
    joinLF (x ++ y) = joinLF x ++ joinLF y := by
  induction x with
  | nil => rfl
  | cons a as ih => simp [joinLF, ih]

theorem decodeUtf8Ignore_nil : decodeUtf8Ignore [] = [] := rfl

theorem pollBytes_join (buf : List Char) (avail : List Nat) :
    joinLF (pollBytes buf avail).1 ++ (pollBytes buf avail).2
      = buf ++ decodeUtf8Ignore avail := by
  by_cases hl : avail.length > 0
  · simp [pollBytes, hl, extractRaw_join]
  · have hav : avail = [] := List.length_eq_zero.mp (by omega)
    subst hav
    simp [pollBytes, decodeUtf8Ignore_nil, joinLF]

theorem rawPollAll_join : ∀ (chunks : List (List Nat)) (buf : List Char),
    joinLF (rawPollAll chunks buf).1 ++ (rawPollAll chunks buf).2
      = buf ++ (chunks.map decodeUtf8Ignore).flatten := by
  intro chunks
  induction chunks with
  | nil => intro buf; simp [rawPollAll, joinLF]
  | cons a as ih =>
      intro buf
      simp only [rawPollAll, List.map_cons, List.flatten]
      rw [joinLF_append, List.append_assoc, ih, ← List.append_assoc,
        pollBytes_join, List.append_assoc]

theorem yieldLines_append (x y : List (List Char)) :
    yieldLines (x ++ y) = yieldLines x ++ yieldLines y := by
  simp [yieldLines, List.filter_append]

theorem recvPollAll_raw : ∀ (chunks : List (List Nat)) (buf : List Char),
    (recvPollAll chunks buf).1 = yieldLines (rawPollAll chunks buf).1 ∧
    (recvPollAll chunks buf).2 = (rawPollAll chunks buf).2 := by
  intro chunks
  induction chunks with
  | nil => intro buf; exact ⟨rfl, rfl⟩
  | cons a as ih =>
      intro buf
      simp only [recvPollAll, rawPollAll, recvPoll]
      constructor
      · rw [yieldLines_append, (ih _).1]
      · exact (ih _).2

theorem rawPollAll_raws_no_lf : ∀ (chunks : List (List Nat)) (buf r : List Char),
    r ∈ (rawPollAll chunks buf).1 → '\n' ∉ r := by
  intro chunks
  induction chunks with
  | nil => intro buf r hr; simp [rawPollAll] at hr
  | cons a as ih =>
      intro buf r hr
      simp only [rawPollAll, List.mem_append] at hr
      rcases hr with hr | hr
      · by_cases hl : a.length > 0
        · simp only [pollBytes, hl, if_pos] at hr
          exact extractRaw_raws_no_lf hr
        · simp [pollBytes, hl] at hr
      · exact ih _ r hr

theorem rawPollAll_rest_no_lf : ∀ (chunks : List (List Nat)) (buf : List Char),
    '\n' ∉ buf → '\n' ∉ (rawPollAll chunks buf).2 := by
  intro chunks
  induction chunks with
  | nil => intro buf hb; simpa [rawPollAll] using hb
  | cons a as ih =>
      intro buf hb
      simp only [rawPollAll]
      refine ih _ ?_
      by_cases hl : a.length > 0
      · simp only [pollBytes, hl, if_pos]
        exact extractRaw_rest_no_lf _
      · simpa [pollBytes, hl] using hb

theorem mem_yieldLines {l : List Char} {raws : List (List Char)}
    (h : l ∈ yieldLines raws) : ∃ r ∈ raws, l = pyStrip r ∧ l ≠ [] := by
  simp only [yieldLines, List.mem_filter, List.mem_map] at h
  obtain ⟨⟨r, hr, rfl⟩, hne⟩ := h
  refine ⟨r, hr, rfl, ?_⟩
  intro hnil
  rw [hnil] at hne
  simp at hne

/-- C1 (amended): for every schedule of byte chunks, concatenating the raw
(pre-strip) line segments with line feeds reinserted, followed by the final
accumulator, reproduces the decoded input text exactly; the yielded lines
are, in order, the non-empty strips of those raw segments.  (As literally
stated — with the stripped lines in place of the raw segments — the claim
is false: see the counterexample.) -/
theorem framing_reconstruction_amended (chunks : List (List Nat)) :
    joinLF (rawPollAll chunks []).1 ++ (rawPollAll chunks []).2
      = (chunks.map decodeUtf8Ignore).flatten ∧
    (recvPollAll chunks []).1 = yieldLines (rawPollAll chunks []).1 ∧
    (recvPollAll chunks []).2 = (rawPollAll chunks []).2 := by
  refine ⟨?_, recvPollAll_raw chunks []⟩
  simpa using rawPollAll_join chunks []

/-- C1 (counterexample): feeding the single chunk `b" \n"` yields no lines
and leaves the accumulator empty, so no concatenation of yielded lines and
accumulator can reproduce the non-empty input. -/
theorem framing_not_lossless :
    (recvPollAll [[32, 10]] []).1 = [] ∧
    (recvPollAll [[32, 10]] []).2 = [] ∧
    ([[32, 10]] : List (List Nat)).flatten ≠ [] := by decide

/-- C3 (amended): a read containing an invalid byte does not fail: the
bytes around it decode normally and the invalid byte is dropped — no
replacement character (`U+FFFD`) appears in the decoded text. -/
theorem decode_invalid_dropped (a b : List Nat)
    (ha : ∀ x ∈ a, x < 128) (hb : ∀ x ∈ b, x < 128) :
    decodeUtf8Ignore (a ++ 0xFF :: b) = a.map Char.ofNat ++ b.map Char.ofNat ∧
    Char.ofNat 0xFFFD ∉ decodeUtf8Ignore (a ++ 0xFF :: b) := by
  refine ⟨decodeUtf8Ignore_drop_ff a b ha hb, ?_⟩
  rw [decodeUtf8Ignore_drop_ff a b ha hb]
  intro hm
  have h65533 : (Char.ofNat 65533).toNat = 65533 := by decide
  rcases List.mem_append.mp hm with h1 | h1
  · obtain ⟨x, hx, hex⟩ := List.mem_map.mp h1
    have hco := congrArg Char.toNat hex
    rw [toNat_ofNat_lt (ha x hx), h65533] at hco
    have := ha x hx
    omega
  · obtain ⟨x, hx, hex⟩ := List.mem_map.mp h1
    have hco := congrArg Char.toNat hex
    rw [toNat_ofNat_lt (hb x hx), h65533] at hco
    have := hb x hx
    omega

/-- C3 (witness): `decode_invalid_dropped` at `b"H\xffi"`. -/
theorem decode_invalid_dropped_witness :
    decodeUtf8Ignore ([72] ++ 0xFF :: [105])
        = [72].map Char.ofNat ++ [105].map Char.ofNat ∧
    Char.ofNat 0xFFFD ∉ decodeUtf8Ignore ([72] ++ 0xFF :: [105]) :=
  decode_invalid_dropped [72] [105] (by decide) (by decide)

/-- C3 (counterexample): decoding `b"A\xffB"` gives `"AB"` — the invalid
byte is dropped, and no replacement character appears in the text appended
to the accumulator, contrary to the claim. -/
theorem decode_no_replacement_char :
    decodeUtf8Ignore [65, 255, 66] = ['A', 'B'] ∧
    Char.ofNat 0xFFFD ∉ decodeUtf8Ignore [65, 255, 66] ∧
    (pollBytes [] [65, 255, 66]).2 = ['A', 'B'] := by decide

/-- C7: every line the receiver ever yields is already stripped, is
non-empty after trimming, and contains no line feed; after every extraction
pass the accumulator contains no line feed. -/
theorem yielded_lines_invariant (chunks : List (List Nat)) :
    (∀ l ∈ (recvPollAll chunks []).1,
        pyStrip l = l ∧ pyStrip l ≠ [] ∧ '\n' ∉ l) ∧
    '\n' ∉ (recvPollAll chunks []).2 := by
  obtain ⟨h1, h2⟩ := recvPollAll_raw chunks []
  constructor
  · intro l hl
    rw [h1] at hl
    obtain ⟨r, hr, rfl, hne⟩ := mem_yieldLines hl
    have hnol : '\n' ∉ r := rawPollAll_raws_no_lf chunks [] r hr
    refine ⟨pyStrip_idem r, ?_, fun hm => hnol (pyStrip_mem hm)⟩
    rw [pyStrip_idem r]
    exact hne
  · rw [h2]
    exact rawPollAll_rest_no_lf chunks [] (by simp)

/-- C7 (witness): `yielded_lines_invariant` at the chunk `b"a\n"` and its
yielded line `"a"`. -/
theorem yielded_lines_invariant_witness :
    (pyStrip ['a'] = ['a'] ∧ pyStrip ['a'] ≠ [] ∧ '\n' ∉ (['a'] : List Char)) ∧
    '\n' ∉ (recvPollAll [[97, 10]] []).2 := by
  have h := yielded_lines_invariant [[97, 10]]
  exact ⟨h.1 ['a'] (by decide), h.2⟩

/-- C10: a poll made while zero bytes are available is a complete no-op:
the visualiser state (readings, trail, accumulator) is unchanged and the
receiver yields no lines and keeps its accumulator. -/
theorem empty_poll_noop (st : VisState) (buf : List Char) :
    visPoll st [] = st ∧ recvPoll buf [] = ([], buf) := ⟨rfl, rfl⟩

theorem no_lf_map_ascii {m : List Nat} (hm : ∀ x ∈ m, x < 128)
    (h10 : (10 : Nat) ∉ m) : '\n' ∉ m.map Char.ofNat := by
  intro hmem
  obtain ⟨x, hx, hex⟩ := List.mem_map.mp hmem
  have hco := congrArg Char.toNat hex
  rw [toNat_ofNat_lt (hm x hx)] at hco
  have hnl : ('\n').toNat = 10 := by decide
  rw [hnl] at hco
  exact h10 (hco ▸ hx)

theorem recvPoll_ascii_buffered {a : List Nat} (ha : ∀ x ∈ a, x < 128)
    (h10 : (10 : Nat) ∉ a) :
    recvPoll [] a = ([], a.map Char.ofNat) := by
  by_cases hl : a.length > 0
  · have hdec : decodeUtf8Ignore a = a.map Char.ofNat := decodeUtf8Ignore_ascii ha
    have hnol : '\n' ∉ a.map Char.ofNat := no_lf_map_ascii ha h10
    simp [recvPoll, pollBytes, hl, hdec, extractRaw_no_lf hnol, yieldLines]
  · have hav : a = [] := List.length_eq_zero.mp (by omega)
    subst hav
    rfl

theorem visPoll_ascii_buffered {a : List Nat} (ha : ∀ x ∈ a, x < 128)
    (h10 : (10 : Nat) ∉ a) :
    visPoll initState a = { initState with buffer := a.map Char.ofNat } := by
  by_cases hl : a.length > 0
  · have hdec : decodeUtf8Ignore a = a.map Char.ofNat := decodeUtf8Ignore_ascii ha
    have hnol : '\n' ∉ a.map Char.ofNat := no_lf_map_ascii ha h10
    simp [visPoll, hl, hdec, initState, extractRaw_no_lf hnol]
  · have hav : a = [] := List.length_eq_zero.mp (by omega)
    subst hav
    rfl

theorem yieldLines_singleton {r : List Char} (h : pyStrip r ≠ []) :
    yieldLines [r] = [pyStrip r] := by
  have he : (pyStrip r).isEmpty = false := by
    simpa [List.isEmpty_iff] using h
  simp [yieldLines, List.filter, he]

/-- C6: a data line delivered split across two polls (split anywhere before
the terminating line feed) yields no lines on the first poll; the second
poll yields exactly the one complete stripped line and empties the
accumulator, the same line a single-poll delivery yields; and the
visualiser reaches the same state either way (so the line parses to the
same record). -/
theorem split_line_two_polls (a b : List Nat)
    (ha : ∀ x ∈ a, x < 128) (hb : ∀ x ∈ b, x < 128)
    (hnl : (10 : Nat) ∉ a ++ b)
    (hne : pyStrip ((a ++ b).map Char.ofNat) ≠ []) :
    (recvPoll [] a).1 = [] ∧
    (recvPoll (recvPoll [] a).2 (b ++ [10])).1
        = [pyStrip ((a ++ b).map Char.ofNat)] ∧
    (recvPoll (recvPoll [] a).2 (b ++ [10])).2 = [] ∧
    (recvPoll [] (a ++ b ++ [10])).1 = [pyStrip ((a ++ b).map Char.ofNat)] ∧
    (recvPoll [] (a ++ b ++ [10])).2 = [] ∧
    visPoll (visPoll initState a) (b ++ [10])
        = visPoll initState (a ++ b ++ [10]) := by
  have h10a : (10 : Nat) ∉ a := fun hm => hnl (List.mem_append_left b hm)
  have h10b : (10 : Nat) ∉ b := fun hm => hnl (List.mem_append_right a hm)
  have hab : ∀ x ∈ a ++ b, x < 128 := by
    intro x hx
    rcases List.mem_append.mp hx with h1 | h1
    · exact ha x h1
    · exact hb x h1
  have hab10 : ∀ x ∈ (a ++ b) ++ [10], x < 128 := by
    intro x hx
    rcases List.mem_append.mp hx with h1 | h1
    · exact hab x h1
    · simp only [List.mem_singleton] at h1
      omega
  have hb10 : ∀ x ∈ b ++ [10], x < 128 := by
    intro x hx
    rcases List.mem_append.mp hx with h1 | h1
    · exact hb x h1
    · simp only [List.mem_singleton] at h1
      omega
  have hnolab : '\n' ∉ (a ++ b).map Char.ofNat := no_lf_map_ascii hab hnl
  have hofnat10 : Char.ofNat 10 = '\n' := by decide
  have hdecb : decodeUtf8Ignore (b ++ [10]) = b.map Char.ofNat ++ ['\n'] := by
    rw [decodeUtf8Ignore_ascii hb10]
    simp [hofnat10]
  have hfull : (a.map Char.ofNat) ++ decodeUtf8Ignore (b ++ [10])
      = (a ++ b).map Char.ofNat ++ '\n' :: [] := by
    rw [hdecb]
    simp [List.map_append]
  have hextr : extractRaw ((a.map Char.ofNat) ++ decodeUtf8Ignore (b ++ [10]))
      = ([(a ++ b).map Char.ofNat], []) := by
    rw [hfull, extractRaw_append_lf ([] : List Char) hnolab]
    rfl
  have hlen2 : (b ++ [10]).length > 0 := by simp
  have hlen3 : (a ++ b ++ [10]).length > 0 := by simp
  have hfirst := recvPoll_ascii_buffered ha h10a
  have hsingle : yieldLines [(a ++ b).map Char.ofNat]
      = [pyStrip ((a ++ b).map Char.ofNat)] := yieldLines_singleton hne
  have hpoll2 : pollBytes (a.map Char.ofNat) (b ++ [10])
      = ([(a ++ b).map Char.ofNat], []) := by
    simp only [pollBytes, hlen2, if_pos]
    exact hextr
  have hdecfull : decodeUtf8Ignore (a ++ b ++ [10])
      = (a ++ b).map Char.ofNat ++ '\n' :: [] := by
    rw [decodeUtf8Ignore_ascii hab10]
    simp [hofnat10]
  have hextr2 : extractRaw (decodeUtf8Ignore (a ++ b ++ [10]))
      = ([(a ++ b).map Char.ofNat], []) := by
    rw [hdecfull, extractRaw_append_lf ([] : List Char) hnolab]
    rfl
  have hpoll3 : pollBytes [] (a ++ b ++ [10])
      = ([(a ++ b).map Char.ofNat], []) := by
    simp only [pollBytes, hlen3, if_pos, List.nil_append]
    exact hextr2
  refine ⟨by rw [hfirst], ?_, ?_, ?_, ?_, ?_⟩
  · rw [hfirst]
    simp only [recvPoll, hpoll2]
    exact hsingle
  · rw [hfirst]
    simp only [recvPoll, hpoll2]
  · simp only [recvPoll, hpoll3]
    exact hsingle
  · simp only [recvPoll, hpoll3]
  · have hextr2a : extractRaw (decodeUtf8Ignore (a ++ (b ++ [10])))
        = ([(a ++ b).map Char.ofNat], []) := by
      rw [← List.append_assoc]
      exact hextr2
    rw [visPoll_ascii_buffered ha h10a]
    simp [visPoll, hlen2, hlen3, initState, hextr, hextr2, hextr2a]

/-- C6 (witness): `split_line_two_polls` on the data line
`"1000,1.0,2.0,3.0,4.0,0.5,-0.5"` broken after `"1000,1.0,2."`. -/
theorem split_line_two_polls_witness :
    (recvPoll [] ("1000,1.0,2.".data.map Char.toNat)).1 = [] ∧
    (recvPoll (recvPoll [] ("1000,1.0,2.".data.map Char.toNat)).2
        ("0,3.0,4.0,0.5,-0.5".data.map Char.toNat ++ [10])).1
      = [pyStrip (("1000,1.0,2.".data.map Char.toNat
          ++ "0,3.0,4.0,0.5,-0.5".data.map Char.toNat).map Char.ofNat)] := by
  have h := split_line_two_polls ("1000,1.0,2.".data.map Char.toNat)
      ("0,3.0,4.0,0.5,-0.5".data.map Char.toNat)
      (by decide) (by decide) (by decide) (by decide)
  exact ⟨h.1, h.2.1⟩

theorem processLine_wrong_fields {line : List Char} (st : VisState)
    (h : (splitComma line).length ≠ 7) : processLine st line = st := by
  unfold processLine
  split
  · rfl
  · split
    · rename_i heq
      exact absurd (by rw [heq]; rfl) h
    · rfl

theorem processLine_parse_some {line : List Char} {r : Telemetry}
    (st : VisState) (h : parseRecord line = some r) :
    processLine st line =
      { st with
          f1 := r.f1
          f2 := r.f2
          f3 := r.f3
          f4 := r.f4
          copx := r.copx
          copy := r.copy
          trail_x := if (st.trail_x ++ [r.copx]).length > 20
                     then (st.trail_x ++ [r.copx]).tail else st.trail_x ++ [r.copx]
          trail_y := if (st.trail_x ++ [r.copx]).length > 20
                     then (st.trail_y ++ [r.copy]).tail else st.trail_y ++ [r.copy] } := by
  unfold parseRecord at h
  unfold processLine
  by_cases h0 : (line.isEmpty || diagStarts line) = true
  · rw [if_pos h0] at h
    cases h
  · rw [if_neg h0] at h ⊢
    split at h
    · rename_i t p1 p2 p3 p4 p5 p6 heq
      rcases hv1 : pyFloat p1 with _ | v1 <;> rw [hv1] at h
      · exact Option.noConfusion h
      rcases hv2 : pyFloat p2 with _ | v2 <;> rw [hv2] at h
      · exact Option.noConfusion h
      rcases hv3 : pyFloat p3 with _ | v3 <;> rw [hv3] at h
      · exact Option.noConfusion h
      rcases hv4 : pyFloat p4 with _ | v4 <;> rw [hv4] at h
      · exact Option.noConfusion h
      rcases hv5 : pyFloat p5 with _ | v5 <;> rw [hv5] at h
      · exact Option.noConfusion h
      rcases hv6 : pyFloat p6 with _ | v6 <;> rw [hv6] at h
      · exact Option.noConfusion h
      injection h with h2
      subst h2
      by_cases hc : 20 < st.trail_x.length + 1 <;> simp [hc]
    · cases h

theorem processLine_trail_of_none {line : List Char} (st : VisState)
    (h : parseRecord line = none) :
    (processLine st line).trail_x = st.trail_x ∧
    (processLine st line).trail_y = st.trail_y ∧
    (processLine st line).buffer = st.buffer := by
  unfold parseRecord at h
  unfold processLine
  by_cases h0 : (line.isEmpty || diagStarts line) = true
  · rw [if_pos h0]
    exact ⟨rfl, rfl, rfl⟩
  · rw [if_neg h0] at h ⊢
    split at h
    · rename_i t p1 p2 p3 p4 p5 p6 heq
      rcases hv1 : pyFloat p1 with _ | v1 <;> rw [hv1] at h
      · exact ⟨rfl, rfl, rfl⟩
      rcases hv2 : pyFloat p2 with _ | v2 <;> rw [hv2] at h
      · exact ⟨rfl, rfl, rfl⟩
      rcases hv3 : pyFloat p3 with _ | v3 <;> rw [hv3] at h
      · exact ⟨rfl, rfl, rfl⟩
      rcases hv4 : pyFloat p4 with _ | v4 <;> rw [hv4] at h
      · exact ⟨rfl, rfl, rfl⟩
      rcases hv5 : pyFloat p5 with _ | v5 <;> rw [hv5] at h
      · exact ⟨rfl, rfl, rfl⟩
      rcases hv6 : pyFloat p6 with _ | v6 <;> rw [hv6] at h
      · exact ⟨rfl, rfl, rfl⟩
      exact Option.noConfusion h
    · exact ⟨rfl, rfl, rfl⟩

/-- C2 (amended): on every line whose parsing fails, the COP trail and the
buffer keep their previous values and no error is surfaced; the current
readings are unchanged whenever the field count is wrong (or the line is
empty or diagnostic), but a line with seven fields whose numeric cast fails
midway leaves the fields before the failing one already overwritten (see
the counterexample). -/
theorem parse_failure_effect (st : VisState) (line : List Char)
    (h : parseRecord line = none) :
    (processLine st line).trail_x = st.trail_x ∧
    (processLine st line).trail_y = st.trail_y ∧
    (processLine st line).buffer = st.buffer ∧
    ((splitComma line).length ≠ 7 → processLine st line = st) := by
  obtain ⟨h1, h2, h3⟩ := processLine_trail_of_none st h
  exact ⟨h1, h2, h3, fun h7 => processLine_wrong_fields st h7⟩

/-- C2 (witness): `parse_failure_effect` at the initial state and the
wrong-field-count line `"1,2,3"`. -/
theorem parse_failure_effect_witness :
    (processLine initState "1,2,3".data).trail_x = initState.trail_x ∧
    (processLine initState "1,2,3".data).trail_y = initState.trail_y ∧
    (processLine initState "1,2,3".data).buffer = initState.buffer ∧
    processLine initState "1,2,3".data = initState := by
  have h := parse_failure_effect initState "1,2,3".data (by decide)
  exact ⟨h.1, h.2.1, h.2.2.1, h.2.2.2 (by decide)⟩

/-- C2 (counterexample): the seven-field line `"t,1.0,2.0,x,4,0.5,0.6"`
fails to parse (field 3 is not numeric), yet processing it overwrites
`f1` and `f2` — the consumer state is not left entirely unchanged. -/
theorem parse_failure_mutates :
    parseRecord "t,1.0,2.0,x,4,0.5,0.6".data = none ∧
    (processLine initState "t,1.0,2.0,x,4,0.5,0.6".data).f1 = 1 ∧
    (processLine initState "t,1.0,2.0,x,4,0.5,0.6".data).f2 = 2 ∧
    initState.f1 = 0 ∧ (1 : ℚ) ≠ 0 := by decide

/-- C8: the parser maps `"1000,1.0,2.0,3.0,4.0,0.5,-0.5"` to the record
`F1=1, F2=2, F3=3, F4=4, COPx=0.5, COPy=-0.5`, and yields no record for
`"Setup complete"` (diagnostic prefix) or `"1,2,3"` (wrong field count). -/
theorem parse_examples :
    parseRecord "1000,1.0,2.0,3.0,4.0,0.5,-0.5".data
        = some ⟨1, 2, 3, 4, mkRat 1 2, mkRat (-1) 2⟩ ∧
    parseRecord "Setup complete".data = none ∧
    parseRecord "1,2,3".data = none := by decide

/-- C9: processing any line preserves the equality of the two trail
lengths; the trail is unchanged unless the line parses completely (in
particular on lines where an earlier field parses and a later one fails),
and on a full parse both trails are extended by exactly the record's COP
pair with the same eviction. -/
theorem trail_integrity (st : VisState) (line : List Char)
    (h : st.trail_x.length = st.trail_y.length) :
    (processLine st line).trail_x.length = (processLine st line).trail_y.length ∧
    (parseRecord line = none →
      (processLine st line).trail_x = st.trail_x ∧
      (processLine st line).trail_y = st.trail_y) ∧
    (∀ r : Telemetry, parseRecord line = some r →
      (processLine st line).trail_x =
        (if (st.trail_x ++ [r.copx]).length > 20
         then (st.trail_x ++ [r.copx]).tail else st.trail_x ++ [r.copx]) ∧
      (processLine st line).trail_y =
        (if (st.trail_x ++ [r.copx]).length > 20
         then (st.trail_y ++ [r.copy]).tail else st.trail_y ++ [r.copy])) := by
  refine ⟨?_, ?_, ?_⟩
  · rcases hp : parseRecord line with _ | r
    · obtain ⟨h1, h2, _⟩ := processLine_trail_of_none st hp
      rw [h1, h2, h]
    · rw [processLine_parse_some st hp]
      by_cases hc : (st.trail_x ++ [r.copx]).length > 20
      · simp only [hc, if_pos]
        simp [h]
      · simp only [hc, if_neg]
        simp [h]
  · intro hp
    obtain ⟨h1, h2, _⟩ := processLine_trail_of_none st hp
    exact ⟨h1, h2⟩
  · intro r hp
    rw [processLine_parse_some st hp]
    exact ⟨rfl, rfl⟩

/-- C9 (witness): `trail_integrity` at the initial state, on the data line
`"0,1.0,2.0,3.0,4.0,0.5,-0.5"` and on the partially-parsing line
`"t,1.0,2.0,x,4,0.5,0.6"`. -/
theorem trail_integrity_witness :
    ((processLine initState "t,1.0,2.0,x,4,0.5,0.6".data).trail_x
        = initState.trail_x ∧
      (processLine initState "t,1.0,2.0,x,4,0.5,0.6".data).trail_y
        = initState.trail_y) ∧
    ((processLine initState "0,1.0,2.0,3.0,4.0,0.5,-0.5".data).trail_x =
        (if (initState.trail_x
              ++ [(⟨1, 2, 3, 4, mkRat 1 2, mkRat (-1) 2⟩ : Telemetry).copx]).length > 20
         then (initState.trail_x
              ++ [(⟨1, 2, 3, 4, mkRat 1 2, mkRat (-1) 2⟩ : Telemetry).copx]).tail
         else initState.trail_x
              ++ [(⟨1, 2, 3, 4, mkRat 1 2, mkRat (-1) 2⟩ : Telemetry).copx])) := by
  refine ⟨(trail_integrity initState _ (by decide)).2.1 (by decide), ?_⟩
  exact ((trail_integrity initState _ (by decide)).2.2
      ⟨1, 2, 3, 4, mkRat 1 2, mkRat (-1) 2⟩ (by decide)).1

theorem pushLast (cs : List ℚ) (v : ℚ) :
    (if ((cs.drop (cs.length - 20)) ++ [v]).length > 20
     then ((cs.drop (cs.length - 20)) ++ [v]).tail
     else (cs.drop (cs.length - 20)) ++ [v])
      = (cs ++ [v]).drop ((cs ++ [v]).length - 20) := by
  by_cases hc : cs.length < 20
  · have h0 : cs.length - 20 = 0 := by omega
    have h0' : (cs ++ [v]).length - 20 = 0 := by
      simp only [List.length_append, List.length_cons, List.length_nil]
      omega
    rw [h0, h0', List.drop_zero, List.drop_zero, if_neg]
    simp only [List.length_append, List.length_cons, List.length_nil, gt_iff_lt,
      not_lt]
    omega
  · have h20 : 20 ≤ cs.length := by omega
    have hlen : (cs.drop (cs.length - 20)).length = 20 := by
      rw [List.length_drop]
      omega
    have hne : cs.drop (cs.length - 20) ≠ [] := by
      intro h
      rw [h] at hlen
      simp at hlen
    rw [if_pos (by rw [List.length_append, hlen]; simp)]
    rw [List.tail_append_singleton_of_ne_nil hne, List.tail_drop]
    have harr : (cs ++ [v]).length - 20 = (cs.length - 20) + 1 := by
      simp only [List.length_append, List.length_cons, List.length_nil]
      omega
    rw [harr, List.drop_append_of_le_length (by omega)]

theorem foldl_trail_gen : ∀ (lines : List (List Char)) (rs : List Telemetry),
    lines.map parseRecord = rs.map some →
    ∀ (st : VisState) (cs ds : List ℚ),
    cs.length = ds.length →
    st.trail_x = cs.drop (cs.length - 20) →
    st.trail_y = ds.drop (ds.length - 20) →
    (lines.foldl processLine st).trail_x
        = (cs ++ rs.map Telemetry.copx).drop
            ((cs ++ rs.map Telemetry.copx).length - 20) ∧
    (lines.foldl processLine st).trail_y
        = (ds ++ rs.map Telemetry.copy).drop
            ((ds ++ rs.map Telemetry.copy).length - 20) := by
  intro lines
  induction lines with
  | nil =>
      intro rs h st cs ds hlen hx hy
      have hrs : rs = [] := by
        cases rs with
        | nil => rfl
        | cons r rt => simp at h
      subst hrs
      simpa using ⟨hx, hy⟩
  | cons l ls ih =>
      intro rs h st cs ds hlen hx hy
      cases rs with
      | nil => simp at h
      | cons r rt =>
          simp only [List.map_cons, List.cons.injEq] at h
          obtain ⟨h1, h2⟩ := h
          have hx2 : (processLine st l).trail_x
              = (cs ++ [r.copx]).drop ((cs ++ [r.copx]).length - 20) := by
            rw [processLine_parse_some st h1]
            simp only []
            rw [hx]
            exact pushLast cs r.copx
          have hy2 : (processLine st l).trail_y
              = (ds ++ [r.copy]).drop ((ds ++ [r.copy]).length - 20) := by
            rw [processLine_parse_some st h1]
            simp only []
            rw [hx, hy]
            have hcond : ((cs.drop (cs.length - 20)) ++ [r.copx]).length
                = ((ds.drop (ds.length - 20)) ++ [r.copy]).length := by
              simp [List.length_drop, hlen]
            rw [hcond]
            exact pushLast ds r.copy
          have key := ih rt h2 (processLine st l) (cs ++ [r.copx]) (ds ++ [r.copy])
            (by simp [hlen]) hx2 hy2
          simp only [List.foldl_cons]
          constructor
          · rw [key.1]
            simp
          · rw [key.2]
            simp

/-- C5: starting from the empty trail, after processing any sequence of
lines that all parse successfully, the trail holds exactly the COP pairs of
the most recent `min(n, 20)` records, oldest-first and newest-last, with
FIFO eviction; its length is `min n 20`. -/
theorem trail_fifo (lines : List (List Char)) (rs : List Telemetry)
    (h : lines.map parseRecord = rs.map some) :
    (lines.foldl processLine initState).trail_x
        = (rs.map Telemetry.copx).drop (rs.length - 20) ∧
    (lines.foldl processLine initState).trail_y
        = (rs.map Telemetry.copy).drop (rs.length - 20) ∧
    (lines.foldl processLine initState).trail_x.length = min rs.length 20 := by
  have key := foldl_trail_gen lines rs h initState [] [] rfl rfl rfl
  simp only [List.nil_append, List.length_map] at key
  refine ⟨key.1, key.2, ?_⟩
  rw [key.1, List.length_drop, List.length_map]
  omega

/-- C5 (witness): `trail_fifo` on 25 sequential valid data lines with
COPx running 0..24: the trail keeps exactly the last 20 COP pairs. -/
theorem trail_fifo_witness :
    ((["0,0,0,0,0,0,0", "0,0,0,0,0,1,0", "0,0,0,0,0,2,0", "0,0,0,0,0,3,0", "0,0,0,0,0,4,0", "0,0,0,0,0,5,0", "0,0,0,0,0,6,0", "0,0,0,0,0,7,0", "0,0,0,0,0,8,0", "0,0,0,0,0,9,0", "0,0,0,0,0,10,0", "0,0,0,0,0,11,0", "0,0,0,0,0,12,0", "0,0,0,0,0,13,0", "0,0,0,0,0,14,0", "0,0,0,0,0,15,0", "0,0,0,0,0,16,0", "0,0,0,0,0,17,0", "0,0,0,0,0,18,0", "0,0,0,0,0,19,0", "0,0,0,0,0,20,0", "0,0,0,0,0,21,0", "0,0,0,0,0,22,0", "0,0,0,0,0,23,0", "0,0,0,0,0,24,0"].map
        String.data).foldl processLine initState).trail_x
      = (((List.range 25).map (fun j => (⟨0, 0, 0, 0, mkRat j 1, 0⟩ : Telemetry))).map
          Telemetry.copx).drop
          (((List.range 25).map (fun j => (⟨0, 0, 0, 0, mkRat j 1, 0⟩ : Telemetry))).length - 20) ∧
    ((["0,0,0,0,0,0,0", "0,0,0,0,0,1,0", "0,0,0,0,0,2,0", "0,0,0,0,0,3,0", "0,0,0,0,0,4,0", "0,0,0,0,0,5,0", "0,0,0,0,0,6,0", "0,0,0,0,0,7,0", "0,0,0,0,0,8,0", "0,0,0,0,0,9,0", "0,0,0,0,0,10,0", "0,0,0,0,0,11,0", "0,0,0,0,0,12,0", "0,0,0,0,0,13,0", "0,0,0,0,0,14,0", "0,0,0,0,0,15,0", "0,0,0,0,0,16,0", "0,0,0,0,0,17,0", "0,0,0,0,0,18,0", "0,0,0,0,0,19,0", "0,0,0,0,0,20,0", "0,0,0,0,0,21,0", "0,0,0,0,0,22,0", "0,0,0,0,0,23,0", "0,0,0,0,0,24,0"].map
        String.data).foldl processLine initState).trail_x.length
      = min ((List.range 25).map (fun j => (⟨0, 0, 0, 0, mkRat j 1, 0⟩ : Telemetry))).length 20 := by
  have h := trail_fifo
    (["0,0,0,0,0,0,0", "0,0,0,0,0,1,0", "0,0,0,0,0,2,0", "0,0,0,0,0,3,0", "0,0,0,0,0,4,0", "0,0,0,0,0,5,0", "0,0,0,0,0,6,0", "0,0,0,0,0,7,0", "0,0,0,0,0,8,0", "0,0,0,0,0,9,0", "0,0,0,0,0,10,0", "0,0,0,0,0,11,0", "0,0,0,0,0,12,0", "0,0,0,0,0,13,0", "0,0,0,0,0,14,0", "0,0,0,0,0,15,0", "0,0,0,0,0,16,0", "0,0,0,0,0,17,0", "0,0,0,0,0,18,0", "0,0,0,0,0,19,0", "0,0,0,0,0,20,0", "0,0,0,0,0,21,0", "0,0,0,0,0,22,0", "0,0,0,0,0,23,0", "0,0,0,0,0,24,0"].map
      String.data)
    ((List.range 25).map (fun j => (⟨0, 0, 0, 0, mkRat j 1, 0⟩ : Telemetry)))
    (by decide)
  exact ⟨h.1, h.2.2⟩

/-- C4 (amended): when the signed total `f1+f2+f3+f4` exceeds 1.0, each
cell shows the percentage `|Fi|/|total|*100` and an opacity
`min(0.3 + (|Fi|/|total|)*0.7, 1)` — which always lies in `[0.3, 1]`, so
the code's clamp to that interval never cuts below; when the signed total
is at or below 1.0, every cell shows 0% and opacity 0.3.  (The claim as
stated — magnitude of the total, and opacity equal to the share clamped —
fails: see the counterexample.) -/
theorem force_cells (f1 f2 f3 f4 : ℚ) :
    (f1 + f2 + f3 + f4 ≤ 1 →
      updateForces f1 f2 f3 f4 = List.replicate 4 ⟨0, 3/10⟩) ∧
    (1 < f1 + f2 + f3 + f4 →
      (updateForces f1 f2 f3 f4 =
        [f2, f1, f3, f4].map (fun f =>
          ⟨|f| / |f1 + f2 + f3 + f4| * 100,
           min (3/10 + |f| / |f1 + f2 + f3 + f4| * (7/10)) 1⟩)) ∧
      ∀ cv ∈ updateForces f1 f2 f3 f4, 3/10 ≤ cv.alpha ∧ cv.alpha ≤ 1) := by
  constructor
  · intro h
    have hng : ¬ (f1 + f2 + f3 + f4 > 1) := not_lt.mpr h
    simp [updateForces, hng, List.replicate]
  · intro h
    have hpos : 0 < f1 + f2 + f3 + f4 := lt_trans zero_lt_one h
    have habs : |f1 + f2 + f3 + f4| = f1 + f2 + f3 + f4 := abs_of_pos hpos
    have hone : (1 : ℚ) ≤ |f1 + f2 + f3 + f4| := by
      rw [habs]
      linarith
    have hmax : max |f1 + f2 + f3 + f4| 1 = |f1 + f2 + f3 + f4| :=
      max_eq_left hone
    constructor
    · simp only [updateForces]
      apply List.map_congr_left
      intro f hf
      have hx : (0 : ℚ) ≤ |f| / |f1 + f2 + f3 + f4| * (7/10) := by positivity
      rw [if_pos h, hmax, max_eq_left (by linarith)]
    · intro cv hcv
      simp only [updateForces, List.mem_map] at hcv
      obtain ⟨f, hf, rfl⟩ := hcv
      rw [if_pos h]
      constructor
      · exact le_min (le_max_right _ _) (by norm_num)
      · exact min_le_right _ _

/-- C4 (witness): `force_cells` at all-zero forces (total ≤ 1) and at
forces (2,1,0,0) (total > 1). -/
theorem force_cells_witness :
    updateForces 0 0 0 0 = List.replicate 4 ⟨0, 3/10⟩ ∧
    ((updateForces 2 1 0 0 =
        [1, 2, 0, 0].map (fun f =>
          ⟨|f| / |(2 : ℚ) + 1 + 0 + 0| * 100,
           min (3/10 + |f| / |(2 : ℚ) + 1 + 0 + 0| * (7/10)) 1⟩)) ∧
      ∀ cv ∈ updateForces 2 1 0 0, 3/10 ≤ cv.alpha ∧ cv.alpha ≤ 1) :=
  ⟨(force_cells 0 0 0 0).1 (by norm_num), (force_cells 2 1 0 0).2 (by norm_num)⟩

/-- C4 (counterexample): with F1 = −5 the magnitude of the total exceeds
1.0 yet every cell shows 0% at minimum opacity (the code compares the
signed total); and with F1 = F2 = 1 the opacity is 13/20, not the cell's
share 1/2 clamped to [0.3, 1]. -/
theorem force_cells_counterexample :
    1 < |(-5 : ℚ) + 0 + 0 + 0| ∧
    updateForces (-5) 0 0 0 = List.replicate 4 ⟨0, 3/10⟩ ∧
    (|(-5 : ℚ)| / |(-5 : ℚ) + 0 + 0 + 0| * 100 : ℚ) ≠ 0 ∧
    1 < (1 : ℚ) + 1 + 0 + 0 ∧
    (updateForces 1 1 0 0).map CellView.alpha
        = [13/20, 13/20, 3/10, 3/10] ∧
    (min (max (|(1 : ℚ)| / |(1 : ℚ) + 1 + 0 + 0|) (3/10)) 1 : ℚ) ≠ 13/20 := by
  refine ⟨by norm_num, ?_, by norm_num, by norm_num, ?_, by norm_num⟩
  · have hng : ¬ ((-5 : ℚ) + 0 + 0 + 0 > 1) := by norm_num
    simp [updateForces, hng, List.replicate]
    norm_num
  · have hp : ((1 : ℚ) + 1 + 0 + 0 > 1) := by norm_num
    simp only [updateForces, List.map_cons, List.map_nil, if_pos hp]
    norm_num

end MOBBO